import Mathlib

/-!
Shallow embedding of the Claude-Stocks loaders
(`stock_data_loader_fast.py`, the "fast" loader, and `stock_data_loader.py`,
the "plain" loader).

Modelling conventions:
- dates are day numbers (`ℤ`); `timedelta(days = k)` is integer subtraction,
  and `(d2 - d1).days` is `d2 - d1`;
- stored close prices are `Option ℚ` (`none` models SQL NULL / pandas NaN);
- raw cell values before `pd.to_numeric` in coerce mode are `RawVal`
  (a number, an unparsable value, or a missing value);
- Python float division by zero follows IEEE semantics; the value of a
  percent-change computation is a `PyF` (finite rational, plus or minus
  infinity, or NaN), since the plain loader divides without a zero guard;
- timestamps produced by `Timestamp.now()` are passed explicitly as a
  `now : ℤ` parameter;
- the external Supabase store is modelled as a list of records, with
  insert-or-replace upsert on the unique key, per the table constraints.
-/

/-- A raw cell value before numeric coercion: a parsed number, an
unparsable (non-numeric, non-null) value, or a missing/NaN value. -/
inductive RawVal where
  | num (q : ℚ)
  | invalid
  | missing
  deriving DecidableEq

/-- `pd.to_numeric` in coerce mode: numbers pass through, everything
else becomes NaN (`none`). -/
def coerceNum : RawVal → Option ℚ
  | RawVal.num q => some q
  | RawVal.invalid => none
  | RawVal.missing => none

/-- `pd.isna` on a raw cell: only a missing/NaN value is na (an
unparsable string is not). -/
def isNa : RawVal → Bool
  | RawVal.missing => true
  | _ => false

/-- `astype(int64)` on a float: truncation toward zero. -/
def truncQ (q : ℚ) : ℤ :=
  if 0 ≤ q then ⌊q⌋ else -⌊-q⌋

/-- Python `round` at integer precision: round half to even. -/
def roundHalfEven (q : ℚ) : ℤ :=
  let f := ⌊q⌋
  let r := q - f
  if r < 1 / 2 then f
  else if 1 / 2 < r then f + 1
  else if f % 2 = 0 then f else f + 1

/-- `round(x, 2)`: round half to even at two decimal places. -/
def round2 (q : ℚ) : ℚ := (roundHalfEven (q * 100) : ℚ) / 100

/-- The value of a Python float expression: finite, plus or minus
infinity, or NaN. -/
inductive PyF where
  | fin (q : ℚ)
  | inf
  | ninf
  | nan
  deriving DecidableEq

/-- `((curr - prev) / prev) * 100` under IEEE float semantics, for
(possibly NaN) operands: a zero denominator yields a signed infinity
(or NaN when the numerator is also zero), a NaN operand yields NaN. -/
def pctF (prev curr : Option ℚ) : PyF :=
  match prev, curr with
  | some p, some c =>
      if p = 0 then
        if 0 < c then PyF.inf else if c < 0 then PyF.ninf else PyF.nan
      else PyF.fin ((c - p) / p * 100)
  | _, _ => PyF.nan

/-- `abs(x) >= t` on a Python float: true for both infinities, false for
NaN (IEEE comparisons with NaN are false). -/
def pyAbsGe (x : PyF) (t : ℚ) : Bool :=
  match x with
  | PyF.fin q => decide (t ≤ |q|)
  | PyF.inf => true
  | PyF.ninf => true
  | PyF.nan => false

/-- `round(x, 2)` on a Python float: infinities and NaN pass through. -/
def pyRound2 : PyF → PyF
  | PyF.fin q => PyF.fin (round2 q)
  | x => x

/-- A `stocks_daily` row as read back by the mover calculations
(`select('*')` then access to `ticker`, `date`, `close_price`,
`volume`). -/
structure Bar where
  ticker : String
  date : ℤ
  close : Option ℚ
  volume : ℤ
  deriving DecidableEq

instance barDateLeDecidable :
    DecidableRel (fun a b : Bar => a.date ≤ b.date) :=
  fun a b => inferInstanceAs (Decidable (a.date ≤ b.date))

instance barDateLeTotal : IsTotal Bar (fun a b : Bar => a.date ≤ b.date) :=
  ⟨fun a b => le_total a.date b.date⟩

instance barDateLeTrans : IsTrans Bar (fun a b : Bar => a.date ≤ b.date) :=
  ⟨fun _ _ _ h1 h2 => le_trans h1 h2⟩

/-- `sort_values('date')` on one ticker's rows (dates are unique per
ticker by the `unique(ticker, date)` constraint, so any sort gives the
same list). -/
def sortByDate (l : List Bar) : List Bar :=
  l.insertionSort (fun a b => a.date ≤ b.date)

/-- `pandas.unique` over a column: distinct values in order of first
appearance. -/
def uniqAux : List String → List String → List String
  | [], _ => []
  | t :: rest, seen =>
      if t ∈ seen then uniqAux rest seen
      else t :: uniqAux rest (t :: seen)

/-- `df[col].unique()`. -/
def uniq (l : List String) : List String := uniqAux l []

/-- The `.gte('date', lo).lte('date', hi)` range query on the store. -/
def windowBars (store : List Bar) (lo hi : ℤ) : List Bar :=
  store.filter (fun b => decide (lo ≤ b.date) && decide (b.date ≤ hi))

/-- `df[df['ticker'] == ticker]`. -/
def tickerBars (rows : List Bar) (tk : String) : List Bar :=
  rows.filter (fun b => b.ticker == tk)

theorem mem_uniqAux {a : String} :
    ∀ (l seen : List String), a ∈ uniqAux l seen ↔ a ∈ l ∧ ¬ a ∈ seen := by
  intro l
  induction l with
  | nil => intro seen; simp [uniqAux]
  | cons t rest ih =>
      intro seen
      by_cases h : t ∈ seen
      · rw [uniqAux, if_pos h, ih, List.mem_cons]
        constructor
        · rintro ⟨hr, hs⟩
          exact ⟨Or.inr hr, hs⟩
        · rintro ⟨hm, hs⟩
          rcases hm with rfl | hr
          · exact absurd h hs
          · exact ⟨hr, hs⟩
      · rw [uniqAux, if_neg h, List.mem_cons, List.mem_cons, ih]
        constructor
        · rintro (rfl | ⟨hr, hs⟩)
          · exact ⟨Or.inl rfl, h⟩
          · exact ⟨Or.inr hr, fun hseen => hs (List.mem_cons_of_mem _ hseen)⟩
        · rintro ⟨hm, hs⟩
          by_cases hat : a = t
          · exact Or.inl hat
          · rcases hm with rfl | hr
            · exact absurd rfl hat
            · refine Or.inr ⟨hr, ?_⟩
              intro hseen
              rcases List.mem_cons.mp hseen with heq | hseen2
              · exact hat heq
              · exact hs hseen2

theorem mem_uniq {a : String} {l : List String} : a ∈ uniq l ↔ a ∈ l := by
  rw [uniq, mem_uniqAux]
  simp

theorem nodup_uniqAux : ∀ (l seen : List String), (uniqAux l seen).Nodup := by
  intro l
  induction l with
  | nil => intro seen; simp [uniqAux]
  | cons t rest ih =>
      intro seen
      by_cases h : t ∈ seen
      · rw [uniqAux, if_pos h]
        exact ih seen
      · rw [uniqAux, if_neg h]
        refine List.Nodup.cons ?_ (ih (t :: seen))
        intro hmem
        rcases (mem_uniqAux rest (t :: seen)).mp hmem with ⟨_, hs⟩
        exact hs (List.mem_cons_self _ _)

theorem nodup_uniq (l : List String) : (uniq l).Nodup := nodup_uniqAux l []

/-- A `daily_movers` record as built by the fast loader
(`calculate_daily_movers` in `stock_data_loader_fast.py`). -/
structure DailyMover where
  ticker : String
  date : ℤ
  previous_close : ℚ
  current_close : ℚ
  percent_change : ℚ
  volume : ℤ
  created_at : ℤ
  deriving DecidableEq

/-- A `weekly_movers` record as built by the fast loader
(`calculate_weekly_movers` in `stock_data_loader_fast.py`). -/
structure WeeklyMover where
  ticker : String
  week_start_date : ℤ
  week_end_date : ℤ
  week_start_close : ℚ
  week_end_close : ℚ
  percent_change : ℚ
  created_at : ℤ
  deriving DecidableEq

/-- A `daily_movers` record as built by the plain loader
(`calculate_and_insert_daily_movers` in `stock_data_loader.py`), whose
percent change is an unguarded float division. -/
structure PlainDailyMover where
  ticker : String
  date : ℤ
  previous_close : Option ℚ
  current_close : Option ℚ
  percent_change : PyF
  volume : ℤ
  created_at : ℤ
  deriving DecidableEq

/-- A `weekly_movers` record as built by the plain loader
(`calculate_and_insert_weekly_movers` in `stock_data_loader.py`). -/
structure PlainWeeklyMover where
  ticker : String
  week_start_date : ℤ
  week_end_date : ℤ
  week_start_close : Option ℚ
  week_end_close : Option ℚ
  percent_change : PyF
  created_at : ℤ
  deriving DecidableEq

/-- Per-ticker body of the fast loader's daily-mover loop: with fewer
than two rows the ticker is skipped; otherwise `prev` and `curr` are the
last two rows after sorting by date (`iloc[-2]`, `iloc[-1]`); the ticker
is skipped when `prev_close == 0 or isna(prev_close) or
isna(curr_close)`; a record is emitted when
`abs(percent_change) >= min_percent`. -/
def fastDailyStep (t : ℚ) (now : ℤ) (tk : String) (bars : List Bar) :
    Option DailyMover :=
  match (sortByDate bars).reverse with
  | curr :: prev :: _ =>
      match prev.close, curr.close with
      | some p, some c =>
          if p = 0 then none
          else if t ≤ |(c - p) / p * 100| then
            some ⟨tk, curr.date, p, c, round2 ((c - p) / p * 100),
              curr.volume, now⟩
          else none
      | _, _ => none
  | _ => none

/-- Per-ticker body of the plain loader's daily-mover loop: identical to
the fast one except that there is no zero/NaN guard, so the division is
an IEEE float division (`pctF`). -/
def plainDailyStep (t : ℚ) (now : ℤ) (tk : String) (bars : List Bar) :
    Option PlainDailyMover :=
  match (sortByDate bars).reverse with
  | curr :: prev :: _ =>
      if pyAbsGe (pctF prev.close curr.close) t then
        some ⟨tk, curr.date, prev.close, curr.close,
          pyRound2 (pctF prev.close curr.close), curr.volume, now⟩
      else none
  | _ => none

/-- Per-ticker body of the fast loader's weekly-mover loop: skip with
fewer than 5 rows; `week_start`/`week_end` are the first and last rows
after sorting by date; skip when the calendar-day span is outside
`[5, 9]`; skip when `week_start_close == 0` or either close is NaN;
emit when `abs(percent_change) >= min_percent`. -/
def fastWeeklyStep (t : ℚ) (now : ℤ) (tk : String) (bars : List Bar) :
    Option WeeklyMover :=
  if bars.length < 5 then none
  else
    match sortByDate bars, (sortByDate bars).reverse with
    | first :: _, last :: _ =>
        if last.date - first.date < 5 ∨ 9 < last.date - first.date then none
        else
          match first.close, last.close with
          | some ws, some we =>
              if ws = 0 then none
              else if t ≤ |(we - ws) / ws * 100| then
                some ⟨tk, first.date, last.date, ws, we,
                  round2 ((we - ws) / ws * 100), now⟩
              else none
          | _, _ => none
    | _, _ => none

/-- Per-ticker body of the plain loader's weekly-mover loop: same as the
fast one but with no zero/NaN guard on the closes. -/
def plainWeeklyStep (t : ℚ) (now : ℤ) (tk : String) (bars : List Bar) :
    Option PlainWeeklyMover :=
  if bars.length < 5 then none
  else
    match sortByDate bars, (sortByDate bars).reverse with
    | first :: _, last :: _ =>
        if last.date - first.date < 5 ∨ 9 < last.date - first.date then none
        else
          if pyAbsGe (pctF first.close last.close) t then
            some ⟨tk, first.date, last.date, first.close, last.close,
              pyRound2 (pctF first.close last.close), now⟩
          else none
    | _, _ => none

/-- `calculate_daily_movers` (fast loader): query the window
`[target - 4, target]` (`yesterday - 3 days` to `target_date`), group by
ticker via `unique()`, and run the per-ticker step. -/
def calculate_daily_movers (t : ℚ) (now : ℤ) (store : List Bar)
    (target : ℤ) : List DailyMover :=
  let window := windowBars store (target - 4) target
  (uniq (window.map Bar.ticker)).filterMap
    (fun tk => fastDailyStep t now tk (tickerBars window tk))

/-- `calculate_weekly_movers` (fast loader): window
`[target - 10, target]`. -/
def calculate_weekly_movers (t : ℚ) (now : ℤ) (store : List Bar)
    (target : ℤ) : List WeeklyMover :=
  let window := windowBars store (target - 10) target
  (uniq (window.map Bar.ticker)).filterMap
    (fun tk => fastWeeklyStep t now tk (tickerBars window tk))

/-- `calculate_and_insert_daily_movers` (plain loader): window
`[today - 2, today - 1]` (`two_days_ago` to `yesterday`). -/
def calculate_and_insert_daily_movers (t : ℚ) (now : ℤ) (store : List Bar)
    (today : ℤ) : List PlainDailyMover :=
  let window := windowBars store (today - 2) (today - 1)
  (uniq (window.map Bar.ticker)).filterMap
    (fun tk => plainDailyStep t now tk (tickerBars window tk))

/-- `calculate_and_insert_weekly_movers` (plain loader): window
`[today - 10, today]`. -/
def calculate_and_insert_weekly_movers (t : ℚ) (now : ℤ) (store : List Bar)
    (today : ℤ) : List PlainWeeklyMover :=
  let window := windowBars store (today - 10) today
  (uniq (window.map Bar.ticker)).filterMap
    (fun tk => plainWeeklyStep t now tk (tickerBars window tk))

theorem fastDailyStep_ticker {t : ℚ} {now : ℤ} {tk : String} {bars : List Bar}
    {m : DailyMover} (h : fastDailyStep t now tk bars = some m) :
    m.ticker = tk := by
  unfold fastDailyStep at h
  repeat' split at h
  all_goals first
    | exact Option.noConfusion h
    | (rw [Option.some_inj] at h; rw [← h])

theorem fastWeeklyStep_ticker {t : ℚ} {now : ℤ} {tk : String} {bars : List Bar}
    {m : WeeklyMover} (h : fastWeeklyStep t now tk bars = some m) :
    m.ticker = tk := by
  unfold fastWeeklyStep at h
  repeat' split at h
  all_goals first
    | exact Option.noConfusion h
    | (rw [Option.some_inj] at h; rw [← h])

theorem plainDailyStep_ticker {t : ℚ} {now : ℤ} {tk : String} {bars : List Bar}
    {m : PlainDailyMover} (h : plainDailyStep t now tk bars = some m) :
    m.ticker = tk := by
  unfold plainDailyStep at h
  repeat' split at h
  all_goals first
    | exact Option.noConfusion h
    | (rw [Option.some_inj] at h; rw [← h])

theorem plainWeeklyStep_ticker {t : ℚ} {now : ℤ} {tk : String} {bars : List Bar}
    {m : PlainWeeklyMover} (h : plainWeeklyStep t now tk bars = some m) :
    m.ticker = tk := by
  unfold plainWeeklyStep at h
  repeat' split at h
  all_goals first
    | exact Option.noConfusion h
    | (rw [Option.some_inj] at h; rw [← h])

/-- Membership in a mover list, when each per-ticker step stamps its own
ticker: a record with ticker `tk` is in the output exactly when `tk`
occurs in the grouped column and the step on `tk` produces it. -/
theorem mem_filterMap_uniq {β : Type} {f : String → Option β} {g : β → String}
    (hf : ∀ tk m, f tk = some m → g m = tk) (l : List String) (tk : String)
    (m : β) :
    (m ∈ (uniq l).filterMap f ∧ g m = tk) ↔ (tk ∈ l ∧ f tk = some m) := by
  constructor
  · rintro ⟨hm, hg⟩
    rcases List.mem_filterMap.mp hm with ⟨a, ha, hfa⟩
    have hga := hf a m hfa
    rw [hga] at hg
    subst hg
    exact ⟨mem_uniq.mp ha, hfa⟩
  · rintro ⟨hl, hfm⟩
    refine ⟨List.mem_filterMap.mpr ⟨tk, mem_uniq.mpr hl, hfm⟩, hf tk m hfm⟩

/-- Existential version of `mem_filterMap_uniq`. -/
theorem exists_mem_filterMap_uniq {β : Type} {f : String → Option β}
    {g : β → String} (hf : ∀ tk m, f tk = some m → g m = tk)
    (l : List String) (tk : String) :
    (∃ m, m ∈ (uniq l).filterMap f ∧ g m = tk) ↔
      (tk ∈ l ∧ (f tk).isSome) := by
  constructor
  · rintro ⟨m, hm⟩
    rcases (mem_filterMap_uniq hf l tk m).mp hm with ⟨hl, hfm⟩
    exact ⟨hl, by rw [hfm]; rfl⟩
  · rintro ⟨hl, hsome⟩
    rcases Option.isSome_iff_exists.mp hsome with ⟨m, hfm⟩
    exact ⟨m, (mem_filterMap_uniq hf l tk m).mpr ⟨hl, hfm⟩⟩

/-- Mapping each emitted record back to its ticker gives the sublist of
grouped tickers whose step fired; used for the one-record-per-ticker
invariant. -/
theorem map_g_filterMap {β : Type} {f : String → Option β} {g : β → String}
    (hf : ∀ tk m, f tk = some m → g m = tk) :
    ∀ l : List String, (l.filterMap f).map g =
      l.filter (fun tk => (f tk).isSome) := by
  intro l
  induction l with
  | nil => rfl
  | cons t rest ih =>
      cases hft : f t with
      | none =>
          rw [List.filterMap_cons_none hft, List.filter_cons_of_neg, ih]
          rw [hft]
          simp
      | some m =>
          rw [List.filterMap_cons_some hft, List.map_cons, ih,
            List.filter_cons_of_pos, hf t m hft]
          rw [hft]
          rfl

/-- A nonempty per-ticker group means the ticker occurs in the column. -/
theorem ticker_mem_of_tickerBars_ne_nil {rows : List Bar} {tk : String}
    (h : tickerBars rows tk ≠ []) : tk ∈ rows.map Bar.ticker := by
  rcases List.exists_mem_of_ne_nil _ h with ⟨b, hb⟩
  rcases List.mem_filter.mp hb with ⟨hbrows, hbtk⟩
  have : b.ticker = tk := by simpa using hbtk
  exact this ▸ List.mem_map_of_mem Bar.ticker hbrows

theorem sortByDate_ne_nil {bars : List Bar} {x : Bar} {l : List Bar}
    (h : (sortByDate bars).reverse = x :: l) : bars ≠ [] := by
  intro hnil
  subst hnil
  simp [sortByDate, List.insertionSort] at h

/-- Unfolding of the fast daily step once the last two sorted bars and
their closes are known. -/
theorem fastDailyStep_eq {t : ℚ} {now : ℤ} {tk : String} {bars : List Bar}
    {curr prev : Bar} {rest : List Bar} {p c : ℚ}
    (hF : (sortByDate bars).reverse = curr :: prev :: rest)
    (hp : prev.close = some p) (hc : curr.close = some c) :
    fastDailyStep t now tk bars =
      if p = 0 then none
      else if t ≤ |(c - p) / p * 100| then
        some ⟨tk, curr.date, p, c, round2 ((c - p) / p * 100),
          curr.volume, now⟩
      else none := by
  unfold fastDailyStep
  rw [hF]
  simp only [hp, hc]

/-- Unfolding of the plain daily step once the last two sorted bars are
known. -/
theorem plainDailyStep_eq {t : ℚ} {now : ℤ} {tk : String} {bars : List Bar}
    {curr prev : Bar} {rest : List Bar}
    (hF : (sortByDate bars).reverse = curr :: prev :: rest) :
    plainDailyStep t now tk bars =
      if pyAbsGe (pctF prev.close curr.close) t then
        some ⟨tk, curr.date, prev.close, curr.close,
          pyRound2 (pctF prev.close curr.close), curr.volume, now⟩
      else none := by
  unfold plainDailyStep
  rw [hF]

/-- The float comparison `abs(((c - p) / p) * 100) >= t` succeeds exactly
when either the denominator is nonzero and the exact percent change
crosses the threshold, or the denominator is zero and the numerator is
not (an infinity, which dominates every finite threshold). -/
theorem pyAbsGe_pctF_some (p c t : ℚ) :
    pyAbsGe (pctF (some p) (some c)) t = true ↔
      ((p ≠ 0 ∧ t ≤ |(c - p) / p * 100|) ∨ (p = 0 ∧ c ≠ 0)) := by
  by_cases hp : p = 0
  · subst hp
    rcases lt_trichotomy c 0 with hc | hc | hc
    · have hc2 : ¬ 0 < c := not_lt.mpr (le_of_lt hc)
      simp [pctF, pyAbsGe, hc, hc2, ne_of_lt hc]
    · subst hc
      simp [pctF, pyAbsGe]
    · simp [pctF, pyAbsGe, hc, ne_of_gt hc]
  · simp [pctF, pyAbsGe, hp]

/-- C1 (amended): in the fast loader, for a ticker whose daily window
holds at least two bars (sorted ascending by date, `prev` and `curr` the
last two, both closes present), a DailyMover is emitted iff
`prev.close != 0` and `abs((curr.close - prev.close) / prev.close * 100)
>= threshold`, and the emitted record carries that value rounded to two
decimals, keyed on `(ticker, curr.date)` with the current bar's volume.
In the plain loader the same iff fails: lacking the zero guard, it also
emits (with an infinite percent change) when `prev.close = 0` and
`curr.close != 0`, so its emission condition is the stated one extended
by that disjunct. -/
theorem c1_daily_mover_emission
    (t : ℚ) (now : ℤ) (store : List Bar) (target today : ℤ) (tk : String)
    (curr prev curr2 prev2 : Bar) (rest rest2 : List Bar) (p c p2 c2 : ℚ)
    (hF : (sortByDate (tickerBars (windowBars store (target - 4) target)
      tk)).reverse = curr :: prev :: rest)
    (hp : prev.close = some p) (hc : curr.close = some c)
    (hP : (sortByDate (tickerBars (windowBars store (today - 2) (today - 1))
      tk)).reverse = curr2 :: prev2 :: rest2)
    (hp2 : prev2.close = some p2) (hc2 : curr2.close = some c2) :
    ((∃ m, m ∈ calculate_daily_movers t now store target ∧ m.ticker = tk) ↔
      (p ≠ 0 ∧ t ≤ |(c - p) / p * 100|))
    ∧ (∀ m, m ∈ calculate_daily_movers t now store target → m.ticker = tk →
        m = ⟨tk, curr.date, p, c, round2 ((c - p) / p * 100),
          curr.volume, now⟩)
    ∧ ((∃ m, m ∈ calculate_and_insert_daily_movers t now store today ∧
          m.ticker = tk) ↔
        ((p2 ≠ 0 ∧ t ≤ |(c2 - p2) / p2 * 100|) ∨ (p2 = 0 ∧ c2 ≠ 0))) := by
  have hfF : ∀ tk2 m, fastDailyStep t now tk2
      (tickerBars (windowBars store (target - 4) target) tk2) = some m →
      m.ticker = tk2 := fun _ _ h => fastDailyStep_ticker h
  have hfP : ∀ tk2 m, plainDailyStep t now tk2
      (tickerBars (windowBars store (today - 2) (today - 1)) tk2) = some m →
      m.ticker = tk2 := fun _ _ h => plainDailyStep_ticker h
  have htkF : tk ∈ (windowBars store (target - 4) target).map Bar.ticker :=
    ticker_mem_of_tickerBars_ne_nil
      (by intro hnil; rw [hnil] at hF; exact sortByDate_ne_nil hF rfl)
  have htkP : tk ∈ (windowBars store (today - 2) (today - 1)).map Bar.ticker :=
    ticker_mem_of_tickerBars_ne_nil
      (by intro hnil; rw [hnil] at hP; exact sortByDate_ne_nil hP rfl)
  have hstepF := @fastDailyStep_eq t now tk _ _ _ _ _ _ hF hp hc
  have hstepP := @plainDailyStep_eq t now tk _ _ _ _ hP
  refine ⟨?_, ?_, ?_⟩
  · rw [calculate_daily_movers, exists_mem_filterMap_uniq hfF, hstepF]
    by_cases hz : p = 0
    · simp [hz]
    · by_cases ht : t ≤ |(c - p) / p * 100|
      · simp [hz, ht, htkF]
      · simp [hz, ht]
  · intro m hm hmtk
    have := (mem_filterMap_uniq hfF
      ((windowBars store (target - 4) target).map Bar.ticker) tk m).mp
      ⟨hm, hmtk⟩
    rcases this with ⟨_, hsome⟩
    rw [hstepF] at hsome
    by_cases hz : p = 0
    · rw [if_pos hz] at hsome; exact Option.noConfusion hsome
    · rw [if_neg hz] at hsome
      by_cases ht : t ≤ |(c - p) / p * 100|
      · rw [if_pos ht] at hsome
        exact (Option.some_inj.mp hsome).symm
      · rw [if_neg ht] at hsome; exact Option.noConfusion hsome
  · rw [calculate_and_insert_daily_movers, exists_mem_filterMap_uniq hfP,
      hstepP, hp2, hc2, ← pyAbsGe_pctF_some p2 c2 t]
    by_cases hg : pyAbsGe (pctF (some p2) (some c2)) t = true
    · simp [hg, htkP]
    · simp [hg]

theorem c1_daily_mover_emission_witness :
    ∃ m, m ∈ calculate_daily_movers 15 0
      [⟨"A", 3, some 100, 10⟩, ⟨"A", 4, some 120, 20⟩] 4 ∧
      m.ticker = "A" := by
  have h := c1_daily_mover_emission 15 0
    [⟨"A", 3, some 100, 10⟩, ⟨"A", 4, some 120, 20⟩] 4 5 "A"
    ⟨"A", 4, some 120, 20⟩ ⟨"A", 3, some 100, 10⟩
    ⟨"A", 4, some 120, 20⟩ ⟨"A", 3, some 100, 10⟩ [] []
    100 120 100 120
    (by decide) rfl rfl (by decide) rfl rfl
  exact h.1.mpr (by norm_num)

/-- C1 counterexample: the plain loader's daily-mover computation emits
a record whose previous close is 0 (the float division yields infinity,
which passes the threshold test), so the claimed "only if
prev.close != 0" fails on `calculate_and_insert_daily_movers`. -/
theorem c1_daily_mover_emission_counterexample :
    ∃ m, m ∈ calculate_and_insert_daily_movers 15 0
      [⟨"A", 3, some 0, 5⟩, ⟨"A", 4, some 100, 6⟩] 5 ∧
      m.ticker = "A" ∧ m.previous_close = some 0 ∧
      m.percent_change = PyF.inf := by decide

/-- Unfolding of the fast weekly step once the first and last sorted
bars and their closes are known. -/
theorem fastWeeklyStep_eq {t : ℚ} {now : ℤ} {tk : String} {bars : List Bar}
    {first last : Bar} {tl tl2 : List Bar} {ws we : ℚ}
    (hs : sortByDate bars = first :: tl)
    (hr : (sortByDate bars).reverse = last :: tl2)
    (hws : first.close = some ws) (hwe : last.close = some we) :
    fastWeeklyStep t now tk bars =
      if bars.length < 5 then none
      else if last.date - first.date < 5 ∨ 9 < last.date - first.date then
        none
      else if ws = 0 then none
      else if t ≤ |(we - ws) / ws * 100| then
        some ⟨tk, first.date, last.date, ws, we,
          round2 ((we - ws) / ws * 100), now⟩
      else none := by
  unfold fastWeeklyStep
  rw [hr, hs]
  simp only [hws, hwe]

/-- Every record emitted by the fast weekly step satisfies the
`[5, 9]`-day span bound (the `days_diff` guard). -/
theorem fastWeeklyStep_span {t : ℚ} {now : ℤ} {tk : String} {bars : List Bar}
    {m : WeeklyMover} (h : fastWeeklyStep t now tk bars = some m) :
    5 ≤ m.week_end_date - m.week_start_date ∧
      m.week_end_date - m.week_start_date ≤ 9 := by
  unfold fastWeeklyStep at h
  repeat' split at h
  all_goals first
    | exact Option.noConfusion h
    | (rw [Option.some_inj] at h; subst h; dsimp only; omega)

/-- Every record emitted by the plain weekly step satisfies the
`[5, 9]`-day span bound. -/
theorem plainWeeklyStep_span {t : ℚ} {now : ℤ} {tk : String}
    {bars : List Bar} {m : PlainWeeklyMover}
    (h : plainWeeklyStep t now tk bars = some m) :
    5 ≤ m.week_end_date - m.week_start_date ∧
      m.week_end_date - m.week_start_date ≤ 9 := by
  unfold plainWeeklyStep at h
  repeat' split at h
  all_goals first
    | exact Option.noConfusion h
    | (rw [Option.some_inj] at h; subst h; dsimp only; omega)

/-- C2 (confirmed): weekly-mover eligibility. With `first`/`last` the
first and last bars of the ticker's `[target - 10, target]` window
sorted by date, a WeeklyMover is emitted iff the ticker has at least 5
bars in the window, the calendar span `last.date - first.date` lies in
`[5, 9]` (so spans of exactly 5 or 9 days are eligible and spans of 4
or 10 days are not), the week-start close is nonzero, and the percent
change crosses the threshold; moreover every emitted weekly record, in
both loader variants, has its span inside `[5, 9]`. -/
theorem c2_weekly_eligibility
    (t : ℚ) (now : ℤ) (store : List Bar) (target today : ℤ) (tk : String)
    (first last : Bar) (tl tl2 : List Bar) (ws we : ℚ)
    (hs : sortByDate (tickerBars (windowBars store (target - 10) target) tk) =
      first :: tl)
    (hr : (sortByDate (tickerBars (windowBars store (target - 10) target)
      tk)).reverse = last :: tl2)
    (hws : first.close = some ws) (hwe : last.close = some we) :
    ((∃ m, m ∈ calculate_weekly_movers t now store target ∧ m.ticker = tk) ↔
      (5 ≤ (tickerBars (windowBars store (target - 10) target) tk).length ∧
        5 ≤ last.date - first.date ∧ last.date - first.date ≤ 9 ∧
        ws ≠ 0 ∧ t ≤ |(we - ws) / ws * 100|))
    ∧ (∀ m, m ∈ calculate_weekly_movers t now store target →
        5 ≤ m.week_end_date - m.week_start_date ∧
          m.week_end_date - m.week_start_date ≤ 9)
    ∧ (∀ m, m ∈ calculate_and_insert_weekly_movers t now store today →
        5 ≤ m.week_end_date - m.week_start_date ∧
          m.week_end_date - m.week_start_date ≤ 9) := by
  have hfW : ∀ tk2 m, fastWeeklyStep t now tk2
      (tickerBars (windowBars store (target - 10) target) tk2) = some m →
      m.ticker = tk2 := fun _ _ h => fastWeeklyStep_ticker h
  have htkW : tk ∈ (windowBars store (target - 10) target).map Bar.ticker :=
    ticker_mem_of_tickerBars_ne_nil
      (by intro hnil; rw [hnil] at hr; exact sortByDate_ne_nil hr rfl)
  have hstep := @fastWeeklyStep_eq t now tk _ _ _ _ _ _ _ hs hr hws hwe
  refine ⟨?_, ?_, ?_⟩
  · rw [calculate_weekly_movers, exists_mem_filterMap_uniq hfW, hstep]
    by_cases h1 : (tickerBars (windowBars store (target - 10) target)
        tk).length < 5
    · rw [if_pos h1]
      simp only [Option.isSome_none, Bool.false_eq_true, and_false, false_iff]
      rintro ⟨h5, -⟩
      omega
    · rw [if_neg h1]
      by_cases h2 : last.date - first.date < 5 ∨ 9 < last.date - first.date
      · rw [if_pos h2]
        simp only [Option.isSome_none, Bool.false_eq_true, and_false,
          false_iff]
        rintro ⟨-, hlo, hhi, -⟩
        omega
      · rw [if_neg h2]
        by_cases h3 : ws = 0
        · rw [if_pos h3]
          simp only [Option.isSome_none, Bool.false_eq_true, and_false,
            false_iff]
          rintro ⟨-, -, -, hws0, -⟩
          exact hws0 h3
        · rw [if_neg h3]
          by_cases h4 : t ≤ |(we - ws) / ws * 100|
          · rw [if_pos h4]
            simp only [Option.isSome_some, and_true]
            constructor
            · intro _
              exact ⟨by omega, by omega, by omega, h3, h4⟩
            · intro _
              exact htkW
          · rw [if_neg h4]
            simp only [Option.isSome_none, Bool.false_eq_true, and_false,
              false_iff]
            rintro ⟨-, -, -, -, ht⟩
            exact h4 ht
  · intro m hm
    rcases List.mem_filterMap.mp hm with ⟨a, -, hfa⟩
    exact fastWeeklyStep_span hfa
  · intro m hm
    rcases List.mem_filterMap.mp hm with ⟨a, -, hfa⟩
    exact plainWeeklyStep_span hfa

theorem c2_weekly_eligibility_witness :
    ∃ m, m ∈ calculate_weekly_movers 15 0
      [⟨"A", 0, some 100, 1⟩, ⟨"A", 1, some 101, 1⟩, ⟨"A", 2, some 102, 1⟩,
        ⟨"A", 3, some 103, 1⟩, ⟨"A", 5, some 200, 1⟩] 5 ∧
      m.ticker = "A" := by
  have h := c2_weekly_eligibility 15 0
    [⟨"A", 0, some 100, 1⟩, ⟨"A", 1, some 101, 1⟩, ⟨"A", 2, some 102, 1⟩,
      ⟨"A", 3, some 103, 1⟩, ⟨"A", 5, some 200, 1⟩] 5 5 "A"
    ⟨"A", 0, some 100, 1⟩ ⟨"A", 5, some 200, 1⟩
    [⟨"A", 1, some 101, 1⟩, ⟨"A", 2, some 102, 1⟩, ⟨"A", 3, some 103, 1⟩,
      ⟨"A", 5, some 200, 1⟩]
    [⟨"A", 3, some 103, 1⟩, ⟨"A", 2, some 102, 1⟩, ⟨"A", 1, some 101, 1⟩,
      ⟨"A", 0, some 100, 1⟩]
    100 200 (by decide) (by decide) rfl rfl
  exact h.1.mpr ⟨by decide, by decide, by decide, by norm_num, by norm_num⟩

/-- The fast daily step never fires when the previous close is zero or
missing. -/
theorem fastDailyStep_none_of_prev_zero {t : ℚ} {now : ℤ} {tk : String}
    {bars : List Bar} {curr prev : Bar} {rest : List Bar}
    (hF : (sortByDate bars).reverse = curr :: prev :: rest)
    (hprev : prev.close = some 0 ∨ prev.close = none) :
    fastDailyStep t now tk bars = none := by
  unfold fastDailyStep
  rw [hF]
  dsimp only
  rcases hprev with h | h <;> cases hc : curr.close <;> simp [h, hc]

/-- The fast weekly step never fires when the week-start close is zero
or missing. -/
theorem fastWeeklyStep_none_of_start_zero {t : ℚ} {now : ℤ} {tk : String}
    {bars : List Bar} {first last : Bar} {tl tl2 : List Bar}
    (hs : sortByDate bars = first :: tl)
    (hr : (sortByDate bars).reverse = last :: tl2)
    (hfirst : first.close = some 0 ∨ first.close = none) :
    fastWeeklyStep t now tk bars = none := by
  unfold fastWeeklyStep
  rw [hr, hs]
  dsimp only
  split
  · rfl
  · split
    · rfl
    · rcases hfirst with h | h <;> cases hc : last.close <;> simp [h, hc]

/-- C3 (amended): in the fast loader, a ticker whose previous close
(daily) or week-start close (weekly) is 0 or missing/NaN never produces
a mover record, whatever the price change; the exact-rational division
is never evaluated there with a zero or missing denominator. The claim
fails for the plain loader, which has no such guard in either mover
routine: it evaluates the float division with a zero denominator and,
when the end close is nonzero, emits a record with infinite percent
change. -/
theorem c3_zero_close_guard
    (t : ℚ) (now : ℤ) (store : List Bar) (target : ℤ) (tk : String)
    (curr prev first last : Bar) (rest tl tl2 : List Bar)
    (hF : (sortByDate (tickerBars (windowBars store (target - 4) target)
      tk)).reverse = curr :: prev :: rest)
    (hprev : prev.close = some 0 ∨ prev.close = none)
    (hs : sortByDate (tickerBars (windowBars store (target - 10) target) tk) =
      first :: tl)
    (hr : (sortByDate (tickerBars (windowBars store (target - 10) target)
      tk)).reverse = last :: tl2)
    (hfirst : first.close = some 0 ∨ first.close = none) :
    (∀ m, m ∈ calculate_daily_movers t now store target → m.ticker ≠ tk)
    ∧ (∀ m, m ∈ calculate_weekly_movers t now store target →
        m.ticker ≠ tk) := by
  constructor
  · intro m hm hmtk
    have hf : ∀ tk2 m2, fastDailyStep t now tk2
        (tickerBars (windowBars store (target - 4) target) tk2) = some m2 →
        m2.ticker = tk2 := fun _ _ h => fastDailyStep_ticker h
    have := (mem_filterMap_uniq hf
      ((windowBars store (target - 4) target).map Bar.ticker) tk m).mp
      ⟨hm, hmtk⟩
    rw [fastDailyStep_none_of_prev_zero hF hprev] at this
    exact Option.noConfusion this.2
  · intro m hm hmtk
    have hf : ∀ tk2 m2, fastWeeklyStep t now tk2
        (tickerBars (windowBars store (target - 10) target) tk2) = some m2 →
        m2.ticker = tk2 := fun _ _ h => fastWeeklyStep_ticker h
    have := (mem_filterMap_uniq hf
      ((windowBars store (target - 10) target).map Bar.ticker) tk m).mp
      ⟨hm, hmtk⟩
    rw [fastWeeklyStep_none_of_start_zero hs hr hfirst] at this
    exact Option.noConfusion this.2

theorem c3_zero_close_guard_witness :
    (∀ m, m ∈ calculate_daily_movers 15 0
      [⟨"Z", 0, some 0, 1⟩, ⟨"Z", 1, some 10, 1⟩, ⟨"Z", 2, some 10, 1⟩,
        ⟨"Z", 3, some 10, 1⟩, ⟨"Z", 4, some 0, 1⟩, ⟨"Z", 5, some 100, 1⟩] 5 →
      m.ticker ≠ "Z")
    ∧ (∀ m, m ∈ calculate_weekly_movers 15 0
      [⟨"Z", 0, some 0, 1⟩, ⟨"Z", 1, some 10, 1⟩, ⟨"Z", 2, some 10, 1⟩,
        ⟨"Z", 3, some 10, 1⟩, ⟨"Z", 4, some 0, 1⟩, ⟨"Z", 5, some 100, 1⟩] 5 →
      m.ticker ≠ "Z") :=
  c3_zero_close_guard 15 0
    [⟨"Z", 0, some 0, 1⟩, ⟨"Z", 1, some 10, 1⟩, ⟨"Z", 2, some 10, 1⟩,
      ⟨"Z", 3, some 10, 1⟩, ⟨"Z", 4, some 0, 1⟩, ⟨"Z", 5, some 100, 1⟩] 5 "Z"
    ⟨"Z", 5, some 100, 1⟩ ⟨"Z", 4, some 0, 1⟩
    ⟨"Z", 0, some 0, 1⟩ ⟨"Z", 5, some 100, 1⟩
    [⟨"Z", 3, some 10, 1⟩, ⟨"Z", 2, some 10, 1⟩, ⟨"Z", 1, some 10, 1⟩]
    [⟨"Z", 1, some 10, 1⟩, ⟨"Z", 2, some 10, 1⟩, ⟨"Z", 3, some 10, 1⟩,
      ⟨"Z", 4, some 0, 1⟩, ⟨"Z", 5, some 100, 1⟩]
    [⟨"Z", 4, some 0, 1⟩, ⟨"Z", 3, some 10, 1⟩, ⟨"Z", 2, some 10, 1⟩,
      ⟨"Z", 1, some 10, 1⟩, ⟨"Z", 0, some 0, 1⟩]
    (by decide) (Or.inl rfl) (by decide) (by decide) (Or.inl rfl)

/-- C3 counterexample: the plain loader's weekly-mover computation emits
a record whose week-start close is 0 — the division runs with a zero
denominator (IEEE infinity) and the record passes the threshold test —
so the claimed guard does not hold in both loader variants. -/
theorem c3_zero_close_guard_counterexample :
    ∃ m, m ∈ calculate_and_insert_weekly_movers 15 0
      [⟨"B", 0, some 0, 1⟩, ⟨"B", 1, some 1, 1⟩, ⟨"B", 2, some 1, 1⟩,
        ⟨"B", 3, some 1, 1⟩, ⟨"B", 5, some 100, 1⟩] 5 ∧
      m.ticker = "B" ∧ m.week_start_close = some 0 ∧
      m.percent_change = PyF.inf := by decide

/-- C9 (confirmed): each mover computation in the fast loader visits
each distinct ticker once (`unique()`) and its per-ticker step yields at
most one record, so the ticker column of each output is duplicate-free:
at most one DailyMover and at most one WeeklyMover per ticker per run. -/
theorem c9_one_mover_per_ticker
    (t : ℚ) (now : ℤ) (store : List Bar) (target : ℤ) :
    ((calculate_daily_movers t now store target).map
      DailyMover.ticker).Nodup
    ∧ ((calculate_weekly_movers t now store target).map
      WeeklyMover.ticker).Nodup := by
  constructor
  · rw [calculate_daily_movers, map_g_filterMap
      (fun _ _ h => fastDailyStep_ticker h)]
    exact (nodup_uniq _).filter _
  · rw [calculate_weekly_movers, map_g_filterMap
      (fun _ _ h => fastWeeklyStep_ticker h)]
    exact (nodup_uniq _).filter _

/-- A row of the fetched batch table handed to `prepare_records`:
`ticker` is `none` when the ticker cell is missing/NaN; `openR` models
column `open`, `highR` column `high`, and so on, as raw cells before
`to_numeric`. -/
structure RawRow where
  ticker : Option String
  date : ℤ
  openR : RawVal
  highR : RawVal
  lowR : RawVal
  closeR : RawVal
  volumeR : RawVal
  deriving DecidableEq

/-- A `stocks_daily` record dict as built by `prepare_records` in the
fast loader. -/
structure StockRecord where
  ticker : String
  company_name : String
  date : ℤ
  open_price : Option ℚ
  high_price : Option ℚ
  low_price : Option ℚ
  close_price : ℚ
  volume : ℤ
  market_cap : Option ℚ
  created_at : ℤ
  deriving DecidableEq

/-- `prepare_records` (fast loader): attach company names from
`ticker_map` with the ticker itself as fallback, coerce the four price
columns with `to_numeric` (invalid becomes NaN, kept as `none`), coerce
volume with `to_numeric(...).fillna(0).astype(int64)`, drop rows whose
ticker or coerced close is missing, and build one record per surviving
row with `market_cap` absent and the run timestamp as `created_at`. -/
def prepare_records (rows : List RawRow)
    (ticker_map : String → Option String) (now : ℤ) : List StockRecord :=
  rows.filterMap (fun r =>
    match r.ticker, coerceNum r.closeR with
    | some tk, some c =>
        some ⟨tk, (ticker_map tk).getD tk, r.date,
          coerceNum r.openR, coerceNum r.highR, coerceNum r.lowR, c,
          ((coerceNum r.volumeR).map truncQ).getD 0, none, now⟩
    | _, _ => none)

theorem prepare_records_length (rows : List RawRow)
    (ticker_map : String → Option String) (now : ℤ) :
    (prepare_records rows ticker_map now).length =
      (rows.filter (fun r =>
        r.ticker.isSome && (coerceNum r.closeR).isSome)).length := by
  induction rows with
  | nil => rfl
  | cons r rest ih =>
      cases hti : r.ticker <;> cases hcl : coerceNum r.closeR <;>
        simp [prepare_records, List.filterMap_cons, List.filter_cons,
          hti, hcl] <;>
        simpa [prepare_records] using ih

/-- C5 (amended): every output record of the normalizer comes from an
input row with a present ticker and a close that coerces to a number;
its price fields are the coerced (possibly null) inputs, its volume is
the coerced volume truncated to an integer with 0 as the default for a
missing/invalid volume (the code does not force the result to be
non-negative: a negative raw volume is passed through), its display
name is the name-map entry with fallback to the ticker itself, and its
timestamp is the run timestamp; rows missing ticker or close contribute
nothing (the output has exactly one record per surviving row). -/
theorem c5_normalizer (rows : List RawRow)
    (ticker_map : String → Option String) (now : ℤ) :
    (∀ rec, rec ∈ prepare_records rows ticker_map now → ∃ r, r ∈ rows ∧
      r.ticker = some rec.ticker ∧
      coerceNum r.closeR = some rec.close_price ∧
      rec.open_price = coerceNum r.openR ∧
      rec.high_price = coerceNum r.highR ∧
      rec.low_price = coerceNum r.lowR ∧
      rec.volume = ((coerceNum r.volumeR).map truncQ).getD 0 ∧
      rec.company_name = (ticker_map rec.ticker).getD rec.ticker ∧
      rec.market_cap = none ∧ rec.created_at = now)
    ∧ (prepare_records rows ticker_map now).length =
      (rows.filter (fun r =>
        r.ticker.isSome && (coerceNum r.closeR).isSome)).length := by
  refine ⟨?_, prepare_records_length rows ticker_map now⟩
  intro rec hrec
  rcases List.mem_filterMap.mp hrec with ⟨r, hr, hfr⟩
  refine ⟨r, hr, ?_⟩
  cases hti : r.ticker with
  | none => rw [hti] at hfr; exact Option.noConfusion hfr
  | some tk =>
      cases hcl : coerceNum r.closeR with
      | none => rw [hti, hcl] at hfr; exact Option.noConfusion hfr
      | some c =>
          rw [hti, hcl] at hfr
          rw [Option.some_inj] at hfr
          subst hfr
          exact ⟨rfl, rfl, rfl, rfl, rfl, rfl, rfl, rfl, rfl⟩

/-- C5 counterexample: a raw row with volume `-5` survives normalization
with volume `-5`, so the claimed coercion "to a non-negative integer"
fails (no clamping is performed). -/
theorem c5_normalizer_counterexample :
    ∃ rec, rec ∈ prepare_records
      [⟨some ("A"), 0, RawVal.missing, RawVal.missing, RawVal.missing,
        RawVal.num 10, RawVal.num (-5)⟩] (fun _ => none) 7 ∧
      rec.volume = -5 ∧ rec.volume < 0 := by decide

theorem c5_normalizer_witness :
    ∀ rec, rec ∈ prepare_records
      [⟨some ("A"), 0, RawVal.invalid, RawVal.missing, RawVal.num 3,
        RawVal.num 10, RawVal.missing⟩] (fun _ => some ("Alpha")) 7 →
      ∃ r, r ∈ [(⟨some ("A"), 0, RawVal.invalid, RawVal.missing, RawVal.num 3,
          RawVal.num 10, RawVal.missing⟩ : RawRow)] ∧
        r.ticker = some rec.ticker ∧
        coerceNum r.closeR = some rec.close_price ∧
        rec.open_price = coerceNum r.openR ∧
        rec.high_price = coerceNum r.highR ∧
        rec.low_price = coerceNum r.lowR ∧
        rec.volume = ((coerceNum r.volumeR).map truncQ).getD 0 ∧
        rec.company_name = ((fun _ => some ("Alpha")) rec.ticker).getD
          rec.ticker ∧
        rec.market_cap = none ∧ rec.created_at = 7 :=
  (c5_normalizer _ (fun _ => some ("Alpha")) 7).1

/-- A per-ticker row of the yfinance batch download (the close cell is
`RawVal.missing` when NaN). -/
structure FetchRow where
  date : ℤ
  openR : RawVal
  highR : RawVal
  lowR : RawVal
  closeR : RawVal
  volumeR : RawVal
  deriving DecidableEq

/-- The outcome of one `yf.download` batch call: either an exception
covering the whole batch (network/parse failure) or per-ticker groups
of rows (`group_by` ticker; each distinct ticker appears once in the
column multi-index). -/
inductive FetchResponse where
  | failure
  | ok (data : List (String × List FetchRow))

/-- Attaching the ticker column to a group's rows. -/
def attachTicker (tk : String) (r : FetchRow) : RawRow :=
  ⟨some tk, r.date, r.openR, r.highR, r.lowR, r.closeR, r.volumeR⟩

/-- The per-ticker loop of `fetch_batch_data`: a ticker whose frame is
empty or whose close column is entirely NaN is skipped (`continue`),
otherwise its rows join the result. -/
def collectBatchRows : List (String × List FetchRow) → List RawRow
  | [] => []
  | (tk, rows) :: rest =>
      if rows.isEmpty || rows.all (fun r => isNa r.closeR) then
        collectBatchRows rest
      else rows.map (attachTicker tk) ++ collectBatchRows rest

/-- `fetch_batch_data` (fast loader): a whole-batch failure degrades to
an empty table (logged, not raised); otherwise the groups are collected
with the no-data / all-NaN-close tickers silently dropped. -/
def fetch_batch_data : FetchResponse → List RawRow
  | FetchResponse.failure => []
  | FetchResponse.ok data => collectBatchRows data

theorem mem_collectBatchRows {r : RawRow} :
    ∀ {l : List (String × List FetchRow)}, r ∈ collectBatchRows l →
    ∃ tk2 rows2, (tk2, rows2) ∈ l ∧ r.ticker = some tk2 ∧
      (rows2.isEmpty || rows2.all (fun x => isNa x.closeR)) = false := by
  intro l
  induction l with
  | nil => intro h; exact absurd h (List.not_mem_nil r)
  | cons p rest ih =>
      rcases p with ⟨tk2, rows2⟩
      intro h
      rw [collectBatchRows] at h
      by_cases hb : (rows2.isEmpty || rows2.all (fun x => isNa x.closeR)) =
        true
      · rw [if_pos hb] at h
        rcases ih h with ⟨tk3, rows3, hm, htk, hc⟩
        exact ⟨tk3, rows3, List.mem_cons_of_mem _ hm, htk, hc⟩
      · rw [if_neg hb] at h
        rcases List.mem_append.mp h with hh | ht
        · rcases List.mem_map.mp hh with ⟨x, -, hx⟩
          refine ⟨tk2, rows2, List.mem_cons_self _ _, ?_,
            Bool.not_eq_true _ ▸ hb⟩
          rw [← hx]
          rfl
        · rcases ih ht with ⟨tk3, rows3, hm, htk, hc⟩
          exact ⟨tk3, rows3, List.mem_cons_of_mem _ hm, htk, hc⟩

theorem keys_nodup_eq {α β : Type} {l : List (α × β)}
    (h : (l.map Prod.fst).Nodup) {a : α} {b b2 : β}
    (h1 : (a, b) ∈ l) (h2 : (a, b2) ∈ l) : b = b2 := by
  induction l with
  | nil => exact absurd h1 (List.not_mem_nil _)
  | cons p rest ih =>
      rw [List.map_cons, List.nodup_cons] at h
      rcases List.mem_cons.mp h1 with he1 | hr1
      · rcases List.mem_cons.mp h2 with he2 | hr2
        · rw [← he2] at he1
          exact (Prod.mk.injEq a b a b2).mp he1 |>.2
        · exfalso
          apply h.1
          have hfst : p.1 = a := congrArg Prod.fst he1.symm
          rw [hfst]
          exact List.mem_map_of_mem Prod.fst hr2
      · rcases List.mem_cons.mp h2 with he2 | hr2
        · exfalso
          apply h.1
          have hfst : p.1 = a := congrArg Prod.fst he2.symm
          rw [hfst]
          exact List.mem_map_of_mem Prod.fst hr1
        · exact ih h.2 hr1 hr2

/-- C6 (confirmed): in a batch fetch, a whole-batch network/parse
failure yields an empty result table rather than aborting; and a
requested ticker whose group has no rows, or whose close values are all
NaN, contributes no row to the result — it is silently excluded, with
no error raised (the function is total). -/
theorem c6_batch_fetch_policy (data : List (String × List FetchRow))
    (tk : String) (rows : List FetchRow)
    (hnodup : (data.map Prod.fst).Nodup)
    (hmem : (tk, rows) ∈ data)
    (hbad : rows = [] ∨ rows.all (fun r => isNa r.closeR) = true) :
    fetch_batch_data FetchResponse.failure = []
    ∧ ∀ r, r ∈ fetch_batch_data (FetchResponse.ok data) →
        r.ticker ≠ some tk := by
  refine ⟨rfl, ?_⟩
  intro r hr htk
  rcases mem_collectBatchRows hr with ⟨tk2, rows2, hm2, htk2, hc2⟩
  rw [htk2] at htk
  have htkeq : tk2 = tk := Option.some_inj.mp htk
  subst htkeq
  have hroweq : rows2 = rows := keys_nodup_eq hnodup hm2 hmem
  subst hroweq
  rcases hbad with hnil | hall
  · subst hnil
    simp at hc2
  · rw [hall, Bool.or_true] at hc2
    exact Bool.true_eq_false ▸ hc2

theorem c6_batch_fetch_policy_witness :
    fetch_batch_data FetchResponse.failure = []
    ∧ ∀ r, r ∈ fetch_batch_data (FetchResponse.ok
        [("A", []),
         ("B", [⟨0, RawVal.num 1, RawVal.num 2, RawVal.num 1,
            RawVal.num 5, RawVal.num 9⟩])]) →
        r.ticker ≠ some ("A") :=
  c6_batch_fetch_policy
    [("A", []),
     ("B", [⟨0, RawVal.num 1, RawVal.num 2, RawVal.num 1,
        RawVal.num 5, RawVal.num 9⟩])]
    "A" [] (by decide) (by decide) (Or.inl rfl)

/-- Key test of a `stocks_daily` row against the `unique(ticker, date)`
conflict key. -/
def keyIs (r : StockRecord) (tk : String) (d : ℤ) : Bool :=
  r.ticker == tk && decide (r.date = d)

/-- One record's upsert with `on_conflict(ticker, date)` on the store:
replace the row holding the key when present (the unique constraint
keeps at most one), else append. -/
def upsertOne (rec : StockRecord) : List StockRecord → List StockRecord
  | [] => [rec]
  | s :: rest =>
      if keyIs s rec.ticker rec.date then rec :: rest
      else s :: upsertOne rec rest

/-- `upsert_records` (fast loader): upsert every record; splitting into
chunks of 800 only groups consecutive records and does not change the
final store, so the fold is over the flat list. -/
def upsert_records (store : List StockRecord) (recs : List StockRecord) :
    List StockRecord :=
  recs.foldl (fun s r => upsertOne r s) store

/-- Range-free point query of the store at one `(ticker, date)` key. -/
def lookupKey (store : List StockRecord) (tk : String) (d : ℤ) :
    Option StockRecord :=
  store.find? (fun s => keyIs s tk d)

/-- Replace only the `created_at` stamp of a record. -/
def setCreatedAt (t : ℤ) (r : StockRecord) : StockRecord :=
  ⟨r.ticker, r.company_name, r.date, r.open_price, r.high_price,
    r.low_price, r.close_price, r.volume, r.market_cap, t⟩

/-- The store holds at most one row per `(ticker, date)` key. -/
def keysNodup (s : List StockRecord) : Prop :=
  List.Pairwise (fun a b => ¬(a.ticker = b.ticker ∧ a.date = b.date)) s

/-- The last record of a list holding a given key, if any (the one whose
upsert wins). -/
def lastKeyed (tk : String) (d : ℤ) : List StockRecord → Option StockRecord
  | [] => none
  | r :: rest =>
      match lastKeyed tk d rest with
      | some x => some x
      | none => if keyIs r tk d then some r else none

theorem keyIs_iff {r : StockRecord} {tk : String} {d : ℤ} :
    keyIs r tk d = true ↔ (r.ticker = tk ∧ r.date = d) := by
  simp [keyIs]

theorem keyIs_self (r : StockRecord) : keyIs r r.ticker r.date = true := by
  simp [keyIs]

theorem lookupKey_upsertOne_self (rec : StockRecord) :
    ∀ store : List StockRecord,
    lookupKey (upsertOne rec store) rec.ticker rec.date = some rec := by
  intro store
  induction store with
  | nil => simp [upsertOne, lookupKey, List.find?_cons, keyIs_self]
  | cons s rest ih =>
      rw [upsertOne]
      by_cases h : keyIs s rec.ticker rec.date = true
      · rw [if_pos h]
        simp [lookupKey, List.find?_cons, keyIs_self]
      · rw [if_neg h]
        have hf : keyIs s rec.ticker rec.date = false := by
          simpa using h
        rw [lookupKey, List.find?_cons, hf]
        exact ih

theorem lookupKey_upsertOne_other {rec : StockRecord} {tk : String} {d : ℤ}
    (h : ¬(rec.ticker = tk ∧ rec.date = d)) :
    ∀ store : List StockRecord,
    lookupKey (upsertOne rec store) tk d = lookupKey store tk d := by
  have hrec : keyIs rec tk d = false := by
    rcases hb : keyIs rec tk d with _ | _
    · rfl
    · exact absurd (keyIs_iff.mp hb) h
  intro store
  induction store with
  | nil =>
      simp [upsertOne, lookupKey, List.find?_cons, hrec]
  | cons s rest ih =>
      rw [upsertOne]
      by_cases hs : keyIs s rec.ticker rec.date = true
      · rw [if_pos hs]
        have hskey := keyIs_iff.mp hs
        have hsf : keyIs s tk d = false := by
          rcases hb : keyIs s tk d with _ | _
          · rfl
          · exfalso
            rcases keyIs_iff.mp hb with ⟨h1, h2⟩
            exact h ⟨hskey.1.symm.trans h1, hskey.2.symm.trans h2⟩
        rw [lookupKey, List.find?_cons, hrec, lookupKey, List.find?_cons, hsf]
      · rw [if_neg hs]
        rcases hsk : keyIs s tk d with _ | _
        · rw [lookupKey, List.find?_cons, hsk, lookupKey, List.find?_cons,
            hsk]
          exact ih
        · rw [lookupKey, List.find?_cons, hsk, lookupKey, List.find?_cons,
            hsk]

theorem lookupKey_upsert_records (tk : String) (d : ℤ) :
    ∀ (recs : List StockRecord) (store : List StockRecord),
    lookupKey (upsert_records store recs) tk d =
      (lastKeyed tk d recs).or (lookupKey store tk d) := by
  intro recs
  induction recs with
  | nil => intro store; simp [upsert_records, lastKeyed, Option.or]
  | cons r rest ih =>
      intro store
      rw [upsert_records, List.foldl_cons]
      have hmid := ih (upsertOne r store)
      rw [upsert_records] at hmid
      rw [hmid, lastKeyed]
      cases hl : lastKeyed tk d rest with
      | some x => rfl
      | none =>
          by_cases hk : keyIs r tk d = true
          · rw [if_pos hk]
            rcases keyIs_iff.mp hk with ⟨h1, h2⟩
            subst h1
            subst h2
            rw [lookupKey_upsertOne_self]
            rfl
          · rw [if_neg hk]
            rw [lookupKey_upsertOne_other (fun hc => hk (keyIs_iff.mpr hc))]

theorem keyIs_setCreatedAt (t : ℤ) (r : StockRecord) (tk : String) (d : ℤ) :
    keyIs (setCreatedAt t r) tk d = keyIs r tk d := rfl

theorem setCreatedAt_eq_self {t : ℤ} {r : StockRecord}
    (h : r.created_at = t) : setCreatedAt t r = r := by
  cases r
  rw [setCreatedAt]
  simp only at h
  rw [h]

/-- The per-row body of `prepare_records`. -/
def prepRow (ticker_map : String → Option String) (now : ℤ) (r : RawRow) :
    Option StockRecord :=
  match r.ticker, coerceNum r.closeR with
  | some tk, some c =>
      some ⟨tk, (ticker_map tk).getD tk, r.date,
        coerceNum r.openR, coerceNum r.highR, coerceNum r.lowR, c,
        ((coerceNum r.volumeR).map truncQ).getD 0, none, now⟩
  | _, _ => none

theorem prepare_records_eq (rows : List RawRow)
    (ticker_map : String → Option String) (now : ℤ) :
    prepare_records rows ticker_map now =
      rows.filterMap (prepRow ticker_map now) := rfl

theorem prepRow_retime (ticker_map : String → Option String) (t1 t2 : ℤ)
    (r : RawRow) :
    prepRow ticker_map t2 r = (prepRow ticker_map t1 r).map
      (setCreatedAt t2) := by
  cases hti : r.ticker with
  | none => simp [prepRow, hti]
  | some tk =>
      cases hcl : coerceNum r.closeR with
      | none => simp [prepRow, hti, hcl]
      | some c => simp [prepRow, hti, hcl, setCreatedAt]

/-- Re-running the normalizer at a later timestamp only restamps
`created_at`. -/
theorem prepare_records_retime (rows : List RawRow)
    (ticker_map : String → Option String) (t1 t2 : ℤ) :
    prepare_records rows ticker_map t2 =
      (prepare_records rows ticker_map t1).map (setCreatedAt t2) := by
  rw [prepare_records_eq, prepare_records_eq, List.map_filterMap]
  exact List.filterMap_congr (fun r _ => prepRow_retime ticker_map t1 t2 r)

theorem lastKeyed_map_setCreatedAt (tk : String) (d : ℤ) (t : ℤ) :
    ∀ l : List StockRecord,
    lastKeyed tk d (l.map (setCreatedAt t)) =
      (lastKeyed tk d l).map (setCreatedAt t) := by
  intro l
  induction l with
  | nil => rfl
  | cons r rest ih =>
      rw [List.map_cons, lastKeyed, lastKeyed, ih]
      cases hl : lastKeyed tk d rest with
      | some x => rfl
      | none =>
          show (if keyIs (setCreatedAt t r) tk d then
              some (setCreatedAt t r) else none) =
            (if keyIs r tk d then some r else none).map (setCreatedAt t)
          rw [keyIs_setCreatedAt]
          by_cases hk : keyIs r tk d = true
          · rw [if_pos hk, if_pos hk]
            rfl
          · rw [if_neg hk, if_neg hk]
            rfl

theorem mem_upsertOne {x rec : StockRecord} :
    ∀ {store : List StockRecord}, x ∈ upsertOne rec store →
      x = rec ∨ x ∈ store := by
  intro store
  induction store with
  | nil =>
      intro h
      rw [upsertOne] at h
      rcases List.mem_cons.mp h with he | hn
      · exact Or.inl he
      · exact absurd hn (List.not_mem_nil x)
  | cons s rest ih =>
      intro h
      rw [upsertOne] at h
      by_cases hk : keyIs s rec.ticker rec.date = true
      · rw [if_pos hk] at h
        rcases List.mem_cons.mp h with he | hn
        · exact Or.inl he
        · exact Or.inr (List.mem_cons_of_mem _ hn)
      · rw [if_neg hk] at h
        rcases List.mem_cons.mp h with he | hn
        · exact Or.inr (he ▸ List.mem_cons_self _ _)
        · rcases ih hn with he2 | hn2
          · exact Or.inl he2
          · exact Or.inr (List.mem_cons_of_mem _ hn2)

theorem keysNodup_upsertOne (rec : StockRecord) :
    ∀ {store : List StockRecord}, keysNodup store →
      keysNodup (upsertOne rec store) := by
  intro store
  induction store with
  | nil =>
      intro _
      exact List.pairwise_singleton _ _
  | cons s rest ih =>
      intro h
      rcases List.pairwise_cons.mp h with ⟨hhead, htail⟩
      rw [upsertOne]
      by_cases hk : keyIs s rec.ticker rec.date = true
      · rw [if_pos hk]
        rcases keyIs_iff.mp hk with ⟨h1, h2⟩
        refine List.pairwise_cons.mpr ⟨?_, htail⟩
        intro b hb hkey
        exact hhead b hb ⟨h1 ▸ hkey.1, h2 ▸ hkey.2⟩
      · rw [if_neg hk]
        refine List.pairwise_cons.mpr ⟨?_, ih htail⟩
        intro b hb hkey
        rcases mem_upsertOne hb with he | hn
        · subst he
          exact hk (keyIs_iff.mpr ⟨hkey.1, hkey.2⟩)
        · exact hhead b hn hkey

theorem keysNodup_upsert_records :
    ∀ (recs store : List StockRecord), keysNodup store →
      keysNodup (upsert_records store recs) := by
  intro recs
  induction recs with
  | nil => intro store h; exact h
  | cons r rest ih =>
      intro store h
      rw [upsert_records, List.foldl_cons]
      exact ih (upsertOne r store) (keysNodup_upsertOne r h)

theorem mem_upsert_records {x : StockRecord} :
    ∀ {recs store : List StockRecord}, x ∈ upsert_records store recs →
      x ∈ store ∨ x ∈ recs := by
  intro recs
  induction recs with
  | nil => intro store h; exact Or.inl h
  | cons r rest ih =>
      intro store h
      rw [upsert_records, List.foldl_cons] at h
      rcases ih h with hs | hr
      · rcases mem_upsertOne hs with he | hn
        · exact Or.inr (he ▸ List.mem_cons_self _ _)
        · exact Or.inl hn
      · exact Or.inr (List.mem_cons_of_mem _ hr)

theorem prepare_records_created_at {rows : List RawRow}
    {ticker_map : String → Option String} {t : ℤ} {r : StockRecord}
    (h : r ∈ prepare_records rows ticker_map t) : r.created_at = t := by
  rw [prepare_records_eq] at h
  rcases List.mem_filterMap.mp h with ⟨row, -, hrow⟩
  cases hti : row.ticker with
  | none => rw [prepRow, hti] at hrow; exact Option.noConfusion hrow
  | some tk =>
      cases hcl : coerceNum row.closeR with
      | none =>
          rw [prepRow, hti, hcl] at hrow
          exact Option.noConfusion hrow
      | some c =>
          rw [prepRow, hti, hcl, Option.some_inj] at hrow
          rw [← hrow]

theorem lastKeyed_isSome_of_mem {x : StockRecord} {tk : String} {d : ℤ}
    (hkey : keyIs x tk d = true) :
    ∀ {l : List StockRecord}, x ∈ l → (lastKeyed tk d l).isSome = true := by
  intro l
  induction l with
  | nil => intro h; exact absurd h (List.not_mem_nil x)
  | cons r rest ih =>
      intro h
      rw [lastKeyed]
      rcases List.mem_cons.mp h with he | hn
      · cases hl : lastKeyed tk d rest with
        | some y => rfl
        | none =>
            subst he
            rw [if_pos hkey]
            rfl
      · cases hl : lastKeyed tk d rest with
        | some y => rfl
        | none =>
            have := ih hn
            rw [hl] at this
            exact absurd this (by simp)

/-- C7 (amended): running the normalizer followed by store upsert twice
on identical raw input yields a store with exactly one row per
`(ticker, date)` key, every key of the input present, and each stored
row equal to the first run's row in every field except `created_at`,
which carries the second run's clock value (`Timestamp.now()` is
re-stamped on every run); when the two runs stamp the same timestamp the
lookup results coincide exactly. The claim's "identical in every field,
including the creation timestamp" holds only in that same-timestamp
case. -/
theorem c7_idempotent_upsert (rows : List RawRow)
    (ticker_map : String → Option String) (t1 t2 : ℤ) (tk : String)
    (d : ℤ) :
    keysNodup (upsert_records
      (upsert_records [] (prepare_records rows ticker_map t1))
      (prepare_records rows ticker_map t2))
    ∧ lookupKey (upsert_records
        (upsert_records [] (prepare_records rows ticker_map t1))
        (prepare_records rows ticker_map t2)) tk d =
      (lookupKey (upsert_records [] (prepare_records rows ticker_map t1))
        tk d).map (setCreatedAt t2)
    ∧ (t1 = t2 → lookupKey (upsert_records
        (upsert_records [] (prepare_records rows ticker_map t1))
        (prepare_records rows ticker_map t2)) tk d =
      lookupKey (upsert_records [] (prepare_records rows ticker_map t1))
        tk d)
    ∧ (∀ r, r ∈ prepare_records rows ticker_map t1 →
        (lookupKey (upsert_records
          (upsert_records [] (prepare_records rows ticker_map t1))
          (prepare_records rows ticker_map t2))
          r.ticker r.date).isSome = true) := by
  have hn : keysNodup (upsert_records
      (upsert_records [] (prepare_records rows ticker_map t1))
      (prepare_records rows ticker_map t2)) :=
    keysNodup_upsert_records _ _
      (keysNodup_upsert_records _ _ List.Pairwise.nil)
  have hlook : ∀ tk2 d2, lookupKey (upsert_records
      (upsert_records [] (prepare_records rows ticker_map t1))
      (prepare_records rows ticker_map t2)) tk2 d2 =
      ((lastKeyed tk2 d2 (prepare_records rows ticker_map t1)).map
        (setCreatedAt t2)).or
        (lookupKey (upsert_records [] (prepare_records rows ticker_map t1))
          tk2 d2) := by
    intro tk2 d2
    rw [lookupKey_upsert_records,
      prepare_records_retime rows ticker_map t1 t2,
      lastKeyed_map_setCreatedAt]
  have hrun1 : ∀ tk2 d2,
      lookupKey (upsert_records [] (prepare_records rows ticker_map t1))
        tk2 d2 = lastKeyed tk2 d2 (prepare_records rows ticker_map t1) := by
    intro tk2 d2
    rw [lookupKey_upsert_records]
    cases lastKeyed tk2 d2 (prepare_records rows ticker_map t1) <;> rfl
  have hmain : ∀ tk2 d2, lookupKey (upsert_records
      (upsert_records [] (prepare_records rows ticker_map t1))
      (prepare_records rows ticker_map t2)) tk2 d2 =
      (lookupKey (upsert_records [] (prepare_records rows ticker_map t1))
        tk2 d2).map (setCreatedAt t2) := by
    intro tk2 d2
    rw [hlook, hrun1]
    cases lastKeyed tk2 d2 (prepare_records rows ticker_map t1) <;> rfl
  refine ⟨hn, hmain tk d, ?_, ?_⟩
  · intro ht
    subst ht
    rw [hmain tk d]
    cases hr1 : lookupKey
        (upsert_records [] (prepare_records rows ticker_map t1)) tk d with
    | none => rfl
    | some r =>
        have hmem : r ∈ upsert_records []
            (prepare_records rows ticker_map t1) :=
          List.mem_of_find?_eq_some hr1
        rcases mem_upsert_records hmem with hnil | hprep
        · exact absurd hnil (List.not_mem_nil r)
        · simp [setCreatedAt_eq_self (prepare_records_created_at hprep)]
  · intro r hr
    rw [hlook r.ticker r.date]
    rcases Option.isSome_iff_exists.mp
      (lastKeyed_isSome_of_mem (keyIs_self r) hr) with ⟨x, hx⟩
    rw [hx]
    rfl

theorem c7_idempotent_upsert_witness :
    lookupKey (upsert_records
      (upsert_records [] (prepare_records
        [⟨some ("A"), 3, RawVal.num 1, RawVal.num 2, RawVal.num 1,
          RawVal.num 10, RawVal.num 5⟩] (fun _ => none) 4))
      (prepare_records
        [⟨some ("A"), 3, RawVal.num 1, RawVal.num 2, RawVal.num 1,
          RawVal.num 10, RawVal.num 5⟩] (fun _ => none) 4)) "A" 3 =
    lookupKey (upsert_records [] (prepare_records
      [⟨some ("A"), 3, RawVal.num 1, RawVal.num 2, RawVal.num 1,
        RawVal.num 10, RawVal.num 5⟩] (fun _ => none) 4)) "A" 3 :=
  (c7_idempotent_upsert
    [⟨some ("A"), 3, RawVal.num 1, RawVal.num 2, RawVal.num 1,
      RawVal.num 10, RawVal.num 5⟩] (fun _ => none) 4 4 "A" 3).2.2.1 rfl

/-- C7 counterexample: re-running the normalize-and-upsert pipeline on
identical raw input but at a later clock (`created_at` stamp 1 instead
of 0) leaves one row per key whose `created_at` differs from the first
run's row, so the stored rows are not identical in every field. -/
theorem c7_idempotent_upsert_counterexample :
    upsert_records
      (upsert_records [] (prepare_records
        [⟨some ("A"), 3, RawVal.num 1, RawVal.num 2, RawVal.num 1,
          RawVal.num 10, RawVal.num 5⟩] (fun _ => none) 0))
      (prepare_records
        [⟨some ("A"), 3, RawVal.num 1, RawVal.num 2, RawVal.num 1,
          RawVal.num 10, RawVal.num 5⟩] (fun _ => none) 1) ≠
    upsert_records [] (prepare_records
      [⟨some ("A"), 3, RawVal.num 1, RawVal.num 2, RawVal.num 1,
        RawVal.num 10, RawVal.num 5⟩] (fun _ => none) 0) := by decide

/-- A `stocks_daily` record dict as built by the plain loader's
`fetch_stock_data` (prices taken straight from the yfinance frame,
possibly NaN). -/
structure PlainStockData where
  ticker : String
  company_name : String
  date : ℤ
  open_price : Option ℚ
  high_price : Option ℚ
  low_price : Option ℚ
  close_price : Option ℚ
  volume : ℤ
  market_cap : Option ℚ
  created_at : ℤ
  deriving DecidableEq

/-- The retry loop of `fetch_stock_data` (plain loader): `attempts`
lists the outcome of each try (`none` models an exception). On a failed
attempt `i` (0-based) that is not the last, sleep `2 ** i` seconds;
after the last failed attempt return None without sleeping. Returns the
result and the sleep durations, in order. -/
def retryWithBackoff : List (Option PlainStockData) → ℕ →
    Option PlainStockData × List ℕ
  | [], _ => (none, [])
  | o :: rest, attempt =>
      match o with
      | some v => (some v, [])
      | none =>
          if rest.isEmpty then (none, [])
          else
            ((retryWithBackoff rest (attempt + 1)).1,
              2 ^ attempt :: (retryWithBackoff rest (attempt + 1)).2)

/-- `fetch_stock_data`'s retry shell with the default
`max_retries = 3`: three attempt slots, starting at attempt 0. -/
def fetch_stock_data (attempts : List (Option PlainStockData)) :
    Option PlainStockData × List ℕ :=
  retryWithBackoff attempts 0

/-- C8 (amended): with `max_retries = 3` the fetch makes up to 3
attempts and returns the first success, or None after the third
failure; between consecutive attempts it sleeps `2 ** attempt` seconds,
which is 1s after the first failure and 2s after the second — only two
sleeps ever happen, and no 4s sleep occurs (the code comment's
"1s, 2s, 4s" never materializes: the loop exits after the third
attempt). -/
theorem c8_retry_backoff (a b c : Option PlainStockData) :
    fetch_stock_data [a, b, c] =
      (a.or (b.or c),
        if a.isSome then []
        else if b.isSome then [1]
        else [1, 2]) := by
  cases a <;> cases b <;> cases c <;> rfl

theorem c8_retry_backoff_witness :
    fetch_stock_data [none, none, none] = (none, [1, 2]) :=
  (c8_retry_backoff none none none).trans rfl

/-- C8 counterexample: with all three attempts failing, the sleeps are
exactly 1s and 2s — not the claimed 1s, 2s, 4s — and the result is
None. -/
theorem c8_retry_backoff_counterexample :
    (fetch_stock_data [none, none, none]).2 = [1, 2] ∧
      (fetch_stock_data [none, none, none]).2 ≠ [1, 2, 4] := by decide

/-- One daily bar of the single instrument queried by
`stock.history` (yfinance columns; NaN prices as `none`). -/
structure HistBar where
  date : ℤ
  openH : Option ℚ
  highH : Option ℚ
  lowH : Option ℚ
  closeH : Option ℚ
  volumeH : ℤ
  deriving DecidableEq

instance histDateLeDecidable :
    DecidableRel (fun a b : HistBar => a.date ≤ b.date) :=
  fun a b => inferInstanceAs (Decidable (a.date ≤ b.date))

instance histDateLeTotal :
    IsTotal HistBar (fun a b : HistBar => a.date ≤ b.date) :=
  ⟨fun a b => le_total a.date b.date⟩

instance histDateLeTrans :
    IsTrans HistBar (fun a b : HistBar => a.date ≤ b.date) :=
  ⟨fun _ _ _ h1 h2 => le_trans h1 h2⟩

def sortHistByDate (l : List HistBar) : List HistBar :=
  l.insertionSort (fun a b => a.date ≤ b.date)

/-- `stock.history(start, stop)`: the instrument's bars with dates in
the half-open range `[start, stop)`, in ascending date order. -/
def history (avail : List HistBar) (start stop : ℤ) : List HistBar :=
  sortHistByDate (avail.filter
    (fun b => decide (start ≤ b.date) && decide (b.date < stop)))

/-- The successful-attempt body of the plain loader's
`fetch_stock_data`: query `history` over `[date - 5 days, date + 1
day)`, return None if empty, else build the record from the most recent
row (`iloc[-1]`), dated with that row's own date (`hist.index[-1]`),
the ticker uppercased, and the company info attached. -/
def fetch_attempt (tk name : String) (mcap : Option ℚ) (now : ℤ)
    (avail : List HistBar) (d : ℤ) : Option PlainStockData :=
  match (history avail (d - 5) (d + 1)).getLast? with
  | none => none
  | some latest =>
      some ⟨tk.toUpper, name, latest.date, latest.openH, latest.highH,
        latest.lowH, latest.closeH, latest.volumeH, mcap, now⟩

/-- Store side of `insert_stock_data`: upsert on
`on_conflict(ticker, date)` with the record's own key. -/
def upsertPlainOne (rec : PlainStockData) :
    List PlainStockData → List PlainStockData
  | [] => [rec]
  | s :: rest =>
      if s.ticker == rec.ticker && decide (s.date = rec.date) then
        rec :: rest
      else s :: upsertPlainOne rec rest

/-- `insert_stock_data` (plain loader). -/
def insert_stock_data (store : List PlainStockData)
    (rec : PlainStockData) : List PlainStockData :=
  upsertPlainOne rec store

def lookupPlain (store : List PlainStockData) (tk : String) (d : ℤ) :
    Option PlainStockData :=
  store.find? (fun s => s.ticker == tk && decide (s.date = d))

theorem sorted_hist_le_getLast? :
    ∀ {l : List HistBar},
    List.Sorted (fun a b : HistBar => a.date ≤ b.date) l →
    ∀ {m : HistBar}, l.getLast? = some m → ∀ b ∈ l, b.date ≤ m.date := by
  intro l
  induction l with
  | nil => intro _ m hm; exact Option.noConfusion hm
  | cons x rest ih =>
      intro h m hm b hb
      cases rest with
      | nil =>
          have hbx : b = x := by simpa using hb
          have hmx : m = x := by simpa [List.getLast?] using hm.symm
          rw [hbx, hmx]
      | cons y t =>
          have hm2 : (y :: t).getLast? = some m := hm
          rcases List.mem_cons.mp hb with rfl | hb2
          · exact (List.pairwise_cons.mp h).1 m
              (List.mem_of_mem_getLast? hm2)
          · exact ih (List.Sorted.of_cons h) hm2 b hb2

theorem lookupPlain_upsertPlainOne_self (rec : PlainStockData) :
    ∀ store : List PlainStockData,
    lookupPlain (upsertPlainOne rec store) rec.ticker rec.date =
      some rec := by
  intro store
  induction store with
  | nil => simp [upsertPlainOne, lookupPlain, List.find?_cons]
  | cons s rest ih =>
      rw [upsertPlainOne]
      by_cases h : (s.ticker == rec.ticker &&
          decide (s.date = rec.date)) = true
      · rw [if_pos h]
        simp [lookupPlain, List.find?_cons]
      · rw [if_neg h]
        have hf : (s.ticker == rec.ticker && decide (s.date = rec.date)) =
            false := by simpa using h
        rw [lookupPlain, List.find?_cons, hf]
        exact ih

/-- C10 (confirmed): a successful single-ticker fetch for target date
`d` returns the most recent available bar in the queried range
`[d - 5, d + 1)`: the record's date is an available trading date, lies
between `d - 5` and `d`, and dominates every available date in the
range (so it can be up to 5 days earlier than `d`); and
`insert_stock_data` persists the record under that returned date — the
record's own key — not under the requested date. -/
theorem c10_last_available_close
    (tk name : String) (mcap : Option ℚ) (now : ℤ) (avail : List HistBar)
    (d : ℤ) (sd : PlainStockData) (store : List PlainStockData)
    (h : fetch_attempt tk name mcap now avail d = some sd) :
    d - 5 ≤ sd.date ∧ sd.date ≤ d
    ∧ (∃ b, b ∈ avail ∧ b.date = sd.date)
    ∧ (∀ b, b ∈ avail → d - 5 ≤ b.date → b.date < d + 1 →
        b.date ≤ sd.date)
    ∧ lookupPlain (insert_stock_data store sd) sd.ticker sd.date =
        some sd := by
  rw [fetch_attempt] at h
  cases hl : (history avail (d - 5) (d + 1)).getLast? with
  | none => rw [hl] at h; exact Option.noConfusion h
  | some latest =>
      rw [hl, Option.some_inj] at h
      have hdate : sd.date = latest.date := by rw [← h]
      have hmem : latest ∈ history avail (d - 5) (d + 1) :=
        List.mem_of_mem_getLast? hl
      have hmem2 : latest ∈ avail.filter
          (fun b => decide (d - 5 ≤ b.date) && decide (b.date < d + 1)) :=
        (List.mem_insertionSort _).mp hmem
      rcases List.mem_filter.mp hmem2 with ⟨hav, hrange⟩
      have hlo : d - 5 ≤ latest.date := by
        have := (Bool.and_eq_true _ _).mp hrange
        exact of_decide_eq_true this.1
      have hhi : latest.date < d + 1 := by
        have := (Bool.and_eq_true _ _).mp hrange
        exact of_decide_eq_true this.2
      have hsorted : List.Sorted (fun a b : HistBar => a.date ≤ b.date)
          (history avail (d - 5) (d + 1)) :=
        List.sorted_insertionSort _ _
      have hmax : ∀ b ∈ history avail (d - 5) (d + 1),
          b.date ≤ latest.date :=
        fun b hb => sorted_hist_le_getLast? hsorted hl b hb
      refine ⟨?_, ?_, ?_, ?_, ?_⟩
      · rw [hdate]
        exact hlo
      · rw [hdate]
        omega
      · exact ⟨latest, hav, hdate.symm⟩
      · intro b hb hblo hbhi
        rw [hdate]
        apply hmax
        exact (List.mem_insertionSort _).mpr
          (List.mem_filter.mpr ⟨hb, by simp [hblo, hbhi]⟩)
      · rw [insert_stock_data]
        exact lookupPlain_upsertPlainOne_self sd store

theorem c10_last_available_close_witness :
    (5 : ℤ) - 5 ≤ (0 : ℤ) ∧ (0 : ℤ) ≤ (5 : ℤ)
    ∧ (∃ b, b ∈ [(⟨0, none, none, none, some 50, 7⟩ : HistBar)] ∧
        b.date = (0 : ℤ))
    ∧ (∀ b, b ∈ [(⟨0, none, none, none, some 50, 7⟩ : HistBar)] →
        (5 : ℤ) - 5 ≤ b.date → b.date < 5 + 1 → b.date ≤ (0 : ℤ))
    ∧ lookupPlain (insert_stock_data []
        ⟨"aapl".toUpper, "Apple", 0, none, none, none, some 50, 7, none, 9⟩)
        ("aapl".toUpper) 0 =
      some ⟨"aapl".toUpper, "Apple", 0, none, none, none, some 50, 7,
        none, 9⟩ :=
  c10_last_available_close ("aapl") ("Apple") none 9
    [⟨0, none, none, none, some 50, 7⟩] 5
    ⟨"aapl".toUpper, "Apple", 0, none, none, none, some 50, 7, none, 9⟩ []
    rfl

/-- Aggregate outcome of one driver run: total successfully persisted
records (successful fetches for the plain loader), whether the daily
and weekly mover computations were invoked, and the process exit
status. -/
structure RunOutcome where
  total_records : ℕ
  movers_run : Bool
  exit_code : ℕ
  deriving DecidableEq

/-- The batch loop and tail of `main` (fast loader): each batch is
fetched and normalized, record counts accumulate into `total_records`
(empty batches and empty record lists contribute 0); when the total is
positive both mover calculations run and the process ends normally
(exit 0); when it is zero they are skipped and `sys.exit(1)` is
called. -/
def fast_main (resps : List FetchResponse)
    (ticker_map : String → Option String) (now : ℤ) : RunOutcome :=
  let total := (resps.map (fun resp =>
    (prepare_records (fetch_batch_data resp) ticker_map now).length)).sum
  if 0 < total then ⟨total, true, 0⟩ else ⟨total, false, 1⟩

/-- `run_daily_update` (plain loader): one retried fetch per ticker;
`successful` counts fetches that returned data; the mover calculations
run only when `successful > 0`, but the method returns normally either
way and the process exits 0. -/
def run_daily_update (attempts : List (List (Option PlainStockData))) :
    RunOutcome :=
  let successful := (attempts.filter
    (fun a => (fetch_stock_data a).1.isSome)).length
  if 0 < successful then ⟨successful, true, 0⟩ else ⟨successful, false, 0⟩

/-- C4 (amended): in both drivers, a run that persisted zero records
skips the mover computations and a run with a positive total runs them;
but only the fast loader signals failure with a non-zero exit code on
an empty run — the plain loader merely logs and returns, so its process
exit code is 0 whether or not any record succeeded. -/
theorem c4_zero_records_driver (resps : List FetchResponse)
    (ticker_map : String → Option String) (now : ℤ)
    (attempts : List (List (Option PlainStockData))) :
    ((fast_main resps ticker_map now).total_records = 0 →
      (fast_main resps ticker_map now).movers_run = false ∧
      (fast_main resps ticker_map now).exit_code = 1)
    ∧ (0 < (fast_main resps ticker_map now).total_records →
      (fast_main resps ticker_map now).movers_run = true ∧
      (fast_main resps ticker_map now).exit_code = 0)
    ∧ ((run_daily_update attempts).total_records = 0 →
      (run_daily_update attempts).movers_run = false)
    ∧ (0 < (run_daily_update attempts).total_records →
      (run_daily_update attempts).movers_run = true)
    ∧ (run_daily_update attempts).exit_code = 0 := by
  by_cases hf : 0 < (resps.map (fun resp =>
      (prepare_records (fetch_batch_data resp) ticker_map now).length)).sum
  <;> by_cases hp : 0 < (attempts.filter
      (fun a => (fetch_stock_data a).1.isSome)).length
  <;> refine ⟨?_, ?_, ?_, ?_, ?_⟩
  <;> simp only [fast_main, run_daily_update, if_pos, if_neg, hf, hp,
        if_true, if_false]
  <;> intro h0
  <;> simp_all

theorem c4_zero_records_driver_witness :
    ((fast_main [FetchResponse.failure] (fun _ => none) 0).total_records =
        0 →
      (fast_main [FetchResponse.failure] (fun _ => none) 0).movers_run =
        false ∧
      (fast_main [FetchResponse.failure] (fun _ => none) 0).exit_code = 1)
    ∧ (0 < (fast_main [FetchResponse.failure] (fun _ => none)
        0).total_records →
      (fast_main [FetchResponse.failure] (fun _ => none) 0).movers_run =
        true ∧
      (fast_main [FetchResponse.failure] (fun _ => none) 0).exit_code = 0)
    ∧ ((run_daily_update [[some ⟨"A", "A", 0, none, none, none, some 1, 1,
        none, 0⟩]]).total_records = 0 →
      (run_daily_update [[some ⟨"A", "A", 0, none, none, none, some 1, 1,
        none, 0⟩]]).movers_run = false)
    ∧ (0 < (run_daily_update [[some ⟨"A", "A", 0, none, none, none, some 1,
        1, none, 0⟩]]).total_records →
      (run_daily_update [[some ⟨"A", "A", 0, none, none, none, some 1, 1,
        none, 0⟩]]).movers_run = true)
    ∧ (run_daily_update [[some ⟨"A", "A", 0, none, none, none, some 1, 1,
        none, 0⟩]]).exit_code = 0 :=
  c4_zero_records_driver [FetchResponse.failure] (fun _ => none) 0
    [[some ⟨"A", "A", 0, none, none, none, some 1, 1, none, 0⟩]]

/-- C4 counterexample: the plain driver with one ticker whose three
fetch attempts all fail persists zero records and skips the movers, but
exits with status 0 — it signals success, not the claimed non-zero
failure. -/
theorem c4_zero_records_driver_counterexample :
    (run_daily_update [[none, none, none]]).total_records = 0 ∧
    (run_daily_update [[none, none, none]]).movers_run = false ∧
    (run_daily_update [[none, none, none]]).exit_code = 0 := by decide

theorem c9_one_mover_per_ticker_witness :
    ((calculate_daily_movers 15 0
      [⟨"A", 3, some 100, 1⟩, ⟨"A", 4, some 200, 1⟩,
        ⟨"B", 3, some 10, 1⟩, ⟨"B", 4, some 20, 1⟩] 4).map
      DailyMover.ticker).Nodup
    ∧ ((calculate_weekly_movers 15 0
      [⟨"A", 3, some 100, 1⟩, ⟨"A", 4, some 200, 1⟩,
        ⟨"B", 3, some 10, 1⟩, ⟨"B", 4, some 20, 1⟩] 4).map
      WeeklyMover.ticker).Nodup :=
  c9_one_mover_per_ticker 15 0
    [⟨"A", 3, some 100, 1⟩, ⟨"A", 4, some 200, 1⟩,
      ⟨"B", 3, some 10, 1⟩, ⟨"B", 4, some 20, 1⟩] 4
